import Mathlib

/-!
Verification of the cluster-graph renderer (`plot.py`).

Python strings are embedded as lists of characters (`Str`), Python's
ordered `dict` / `defaultdict(list)` as an association list kept in key
insertion order, and Python's `set` of seen edge keys as a list queried
by membership.  The recursive subgraph traversal is embedded with an
explicit fuel parameter; each recursive call strictly increases the
length of the cluster path and every path is one of the finitely many
partition keys, so the fuel chosen in `generate_dot` (total length of
all keys plus one) always exceeds the recursion depth and the fuel
never runs out on any input.
-/

abbrev Str := List Char

/-- Coerce a Lean string literal into the character-list representation. -/
def str (s : String) : Str := s.data

/-- The fixed pastel palette from the top of `plot.py`; the commented-out
entries of the source are omitted, leaving the four active colors. -/
def pastels_hex_color_theme : List Str :=
  [ str "#FFDAB9"
  , str "#FAFAD2"
  , str "#D3FFCE"
  , str "#E6E6FA" ]

/-- Python `s.split("/")`: split on every occurrence of the separator,
producing `[""]` for the empty string, and keeping empty segments. -/
def split_sep : Str → List Str
  | [] => [[]]
  | c :: rest =>
    match split_sep rest with
    | [] => [[]]
    | s :: ss => if c = '/' then [] :: s :: ss else (c :: s) :: ss

/-- Python `sep.join(parts)`. -/
def join_with (sep : Str) : List Str → Str
  | [] => []
  | [x] => x
  | x :: y :: rest => x ++ sep ++ join_with sep (y :: rest)

/-- The owning-cluster rule inlined in `build_clusters` (lines 24-25 of
`plot.py`): `"/".join(parts[:-1]) if len(parts) > 1 else ""`. -/
def owner_path (node : Str) : Str :=
  if (split_sep node).length > 1 then
    join_with (str "/") (split_sep node).dropLast
  else []

/-- `clusters[cluster_path].append(node)` on a `defaultdict(list)` kept
as an insertion-ordered association list. -/
def append_to_cluster (clusters : List (Str × List Str)) (cluster_path node : Str) :
    List (Str × List Str) :=
  match clusters with
  | [] => [(cluster_path, [node])]
  | (k, ns) :: rest =>
    if k = cluster_path then (k, ns ++ [node]) :: rest
    else (k, ns) :: append_to_cluster rest cluster_path node

/-- `build_clusters` of `plot.py` (lines 21-27). -/
def build_clusters (nodes : List Str) : List (Str × List Str) :=
  nodes.foldl (fun cs node => append_to_cluster cs (owner_path node) node) []

/-- Python `clusters.get(cluster_path, [])`. -/
def clusters_get (clusters : List (Str × List Str)) (k : Str) : List Str :=
  match clusters with
  | [] => []
  | (k', v) :: rest => if k' = k then v else clusters_get rest k

/-- `get_cluster` of `plot.py` (lines 30-31):
`"/".join(node.split("/")[:-1]) if "/" in node else ""`. -/
def get_cluster (node : Str) : Str :=
  if '/' ∈ node then join_with (str "/") (split_sep node).dropLast
  else []

/-- Python `s.startswith(p)`. -/
def starts_with : Str → Str → Bool
  | _, [] => true
  | [], _ :: _ => false
  | c :: s, d :: p => c = d && starts_with s p

/-- Lexicographic comparison of strings by character code, as used by
Python's `sorted` on strings. -/
def str_le : Str → Str → Bool
  | [], _ => true
  | _ :: _, [] => false
  | a :: as, b :: bs => if a < b then true else if a = b then str_le as bs else false

def insert_sorted (x : Str) : List Str → List Str
  | [] => [x]
  | y :: ys => if str_le x y then x :: y :: ys else y :: insert_sorted x ys

/-- Python `sorted` on a collection of strings (stable insertion sort;
the collection here is always duplicate-free, matching `sorted(set)`. -/
def sort_strs : List Str → List Str
  | [] => []
  | x :: xs => insert_sorted x (sort_strs xs)

/-- Python `"    " * indent`. -/
def indent_str (indent : Nat) : Str := (List.replicate indent (str "    ")).flatten

/-- Python `node.split("/")[-1]` (the split list is never empty). -/
def last_seg (node : Str) : Str := (split_sep node).getLastD []

/-- The subgraph key `f"cluster_{cluster_path}"` used in lines 63 and
101/103 of `plot.py`. -/
def cluster_key (cluster_path : Str) : Str := str "cluster_" ++ cluster_path

/-- The palette lookup on line 62 of `plot.py`:
`pastels_hex_color_theme[(indent - 1) % len(pastels_hex_color_theme)]`. -/
def depth_color (indent : Nat) : Str :=
  pastels_hex_color_theme.getD ((indent - 1) % pastels_hex_color_theme.length) []

/-- Line 63: `f'{sub_indent}subgraph "cluster_{cluster_path}" {{'`. -/
def subgraph_open (sub_indent cluster_path : Str) : Str :=
  sub_indent ++ str "subgraph \"" ++ cluster_key cluster_path ++ str "\" \x7b"

/-- Line 73: `f'{sub_indent}    "{node}" [label="{label}"];'`. -/
def node_decl_line (sub_indent node : Str) : Str :=
  sub_indent ++ str "    \"" ++ node ++ str "\" [label=\"" ++ last_seg node ++ str "\"];"

/-- The six lines appended for a non-root cluster (lines 63-68). -/
def opening_lines (sub_indent cluster_path cluster_label color : Str) : List Str :=
  [ subgraph_open sub_indent cluster_path
  , sub_indent ++ str "    label=\"" ++ cluster_label ++ str "\";"
  , sub_indent ++ str "    fontsize=20;"
  , sub_indent ++ str "    style=filled;"
  , sub_indent ++ str "    color=\"" ++ color ++ str "\";"
  , sub_indent ++ str "    fillcolor=\"" ++ color ++ str "\";" ]

/-- `create_subgraphs` of `plot.py` (lines 52-85), with the mutable
accumulator `dot` turned into the returned line list and the recursion
driven by fuel (see the header comment). -/
def create_subgraphs (clusters : List (Str × List Str)) :
    Nat → Str → List Str → List Str
  | 0, _, _ => []
  | fuel + 1, cluster_path, parents =>
    let indent := parents.length + 1
    let sub_indent := indent_str indent
    let cluster_nodes := clusters_get clusters cluster_path
    let head_lines : List Str :=
      if cluster_path ≠ [] then
        opening_lines sub_indent cluster_path
          (cluster_path.drop (if parents = [] then 0 else (parents.getLastD []).length))
          (depth_color indent)
      else []
    let node_lines := cluster_nodes.map (fun node => node_decl_line sub_indent node)
    let nested_clusters :=
      (((clusters.map Prod.fst).filter
          (fun k => starts_with k (cluster_path ++ ['/']) && decide (k ≠ cluster_path))).eraseDups)
    let rec_lines := (sort_strs nested_clusters).flatMap
      (fun nested => create_subgraphs clusters fuel nested (parents ++ [cluster_path ++ ['/']]))
    let tail_lines : List Str := if cluster_path ≠ [] then [sub_indent ++ str "\x7d"] else []
    head_lines ++ node_lines ++ rec_lines ++ tail_lines

/-- Lines 98-103 of `plot.py`: the boundary-annotation attribute list. -/
def edge_attrs (from_node to_node : Str) : List Str :=
  let from_cluster := get_cluster from_node
  let to_cluster := get_cluster to_node
  if from_cluster ≠ to_cluster then
    (if to_cluster ≠ [] then [str "lhead=\"" ++ cluster_key to_cluster ++ str "\""] else [])
      ++ (if from_cluster ≠ [] then [str "ltail=\"" ++ cluster_key from_cluster ++ str "\""] else [])
  else []

/-- Line 105: `edge_key = ", ".join(edge_attrs)`. -/
def edge_key_of (from_node to_node : Str) : Str :=
  join_with (str ", ") (edge_attrs from_node to_node)

/-- Line 110: `f'    "{from_node}" -> "{to_node}" [{edge_key}];'`. -/
def edge_line (from_node to_node edge_key : Str) : Str :=
  str "    \"" ++ from_node ++ str "\" -> \"" ++ to_node ++ str "\" [" ++ edge_key ++ str "];"

/-- The edge loop of `plot.py` (lines 91-110): `seen_edges` is the set of
already-emitted attribute keys, an edge is emitted when its key is unseen
or empty, and the key is recorded on emission. -/
def add_edges (seen_edges : List Str) : List (Str × Str) → List Str
  | [] => []
  | (from_node, to_node) :: rest =>
    let edge_key := edge_key_of from_node to_node
    if edge_key ∉ seen_edges ∨ edge_key = [] then
      edge_line from_node to_node edge_key :: add_edges (edge_key :: seen_edges) rest
    else add_edges seen_edges rest

/-- The same edge loop, returning the `(from, to, key)` triple of each
emitted edge instead of the formatted line (proved below to generate
`add_edges` by formatting each triple). -/
def add_edges_keyed (seen_edges : List Str) : List (Str × Str) → List (Str × Str × Str)
  | [] => []
  | (from_node, to_node) :: rest =>
    let edge_key := edge_key_of from_node to_node
    if edge_key ∉ seen_edges ∨ edge_key = [] then
      (from_node, to_node, edge_key) :: add_edges_keyed (edge_key :: seen_edges) rest
    else add_edges_keyed seen_edges rest

/-- The input document: `data["nodes"]` and `data["edges"]`. -/
structure InputData where
  nodes : List Str
  edges : List (Str × Str)

/-- `generate_dot` of `plot.py` (lines 41-113), as the list `dot` of
emitted lines: header, the top-level loop `for root_cluster in clusters`
over the partition keys in insertion order, the edge loop, and the
closing brace. -/
def generate_dot (data : InputData) : List Str :=
  let clusters := build_clusters data.nodes
  let cluster_fuel := ((clusters.map Prod.fst).map List.length).sum + 1
  [ str "digraph G \x7b"
  , str "    compound=true;"
  , str "    rankdir=LR;"
  , str "    node [style=filled, fillcolor=\"#ffffff\", shape=box];" ]
  ++ (clusters.map Prod.fst).flatMap
      (fun root_cluster => create_subgraphs clusters cluster_fuel root_cluster [])
  ++ add_edges [] data.edges
  ++ [str "\x7d"]

/-- Line 113: `"\n".join(dot)`, the full output text. -/
def generate_dot_output (data : InputData) : Str :=
  join_with [Char.ofNat 10] (generate_dot data)

/-! ### Basic facts about splitting -/

theorem split_sep_ne_nil (s : Str) : split_sep s ≠ [] := by
  cases s with
  | nil => simp [split_sep]
  | cons c rest =>
    show (match split_sep rest with
      | [] => [[]]
      | s :: ss => if c = '/' then [] :: s :: ss else (c :: s) :: ss) ≠ []
    obtain ⟨x, xs, hr⟩ := List.exists_cons_of_ne_nil (split_sep_ne_nil rest)
    rw [hr]
    by_cases h : c = '/' <;> simp [h]

theorem split_sep_cons_eq (c : Char) (rest : Str) (x : Str) (xs : List Str)
    (hr : split_sep rest = x :: xs) :
    split_sep (c :: rest) = if c = '/' then [] :: x :: xs else (c :: x) :: xs := by
  show (match split_sep rest with
    | [] => [[]]
    | s :: ss => if c = '/' then [] :: s :: ss else (c :: s) :: ss) = _
  rw [hr]

theorem one_lt_split_sep_length_iff (s : Str) : 1 < (split_sep s).length ↔ '/' ∈ s := by
  induction s with
  | nil => simp [split_sep]
  | cons c rest ih =>
    obtain ⟨x, xs, hr⟩ := List.exists_cons_of_ne_nil (split_sep_ne_nil rest)
    rw [split_sep_cons_eq c rest x xs hr]
    by_cases h : c = '/'
    · subst h
      rw [if_pos rfl]
      constructor
      · intro _; exact List.mem_cons_self _ _
      · intro _; simp only [List.length_cons]; omega
    · rw [if_neg h]
      rw [hr] at ih
      simp only [List.length_cons] at ih ⊢
      simp only [List.mem_cons]
      constructor
      · intro hl; right; exact ih.mp hl
      · rintro (hc | hm)
        · exact absurd hc.symm h
        · exact ih.mpr hm

/-! ### The partitioner -/

theorem clusters_get_append_to_cluster (cs : List (Str × List Str)) (p n c : Str) :
    clusters_get (append_to_cluster cs p n) c =
      if p = c then clusters_get cs c ++ [n] else clusters_get cs c := by
  induction cs with
  | nil =>
    by_cases h : p = c <;> simp [append_to_cluster, clusters_get, h]
  | cons hd rest ih =>
    obtain ⟨k, ns⟩ := hd
    by_cases hk : k = p
    · subst hk
      by_cases hc : k = c
      · subst hc; simp [append_to_cluster, clusters_get]
      · simp [append_to_cluster, clusters_get, hc]
    · have hp : p ≠ k := fun h => hk h.symm
      by_cases hc : k = c
      · subst hc
        simp [append_to_cluster, clusters_get, hk, hp]
      · simp [append_to_cluster, clusters_get, hk, hc, ih]

theorem build_clusters_foldl_get (nodes : List Str) :
    ∀ (cs : List (Str × List Str)) (c : Str),
      clusters_get
          (nodes.foldl (fun cs node => append_to_cluster cs (owner_path node) node) cs) c
        = clusters_get cs c ++ nodes.filter (fun n => decide (owner_path n = c)) := by
  induction nodes with
  | nil => intro cs c; simp
  | cons x xs ih =>
    intro cs c
    simp only [List.foldl_cons, List.filter_cons]
    rw [ih, clusters_get_append_to_cluster]
    by_cases h : owner_path x = c
    · simp [h, List.append_assoc]
    · simp [h]

theorem build_clusters_get (nodes : List Str) (c : Str) :
    clusters_get (build_clusters nodes) c
      = nodes.filter (fun n => decide (owner_path n = c)) := by
  have h := build_clusters_foldl_get nodes [] c
  simpa [build_clusters, clusters_get] using h

theorem keys_append_to_cluster (cs : List (Str × List Str)) (p n : Str) :
    (append_to_cluster cs p n).map Prod.fst =
      if p ∈ cs.map Prod.fst then cs.map Prod.fst else cs.map Prod.fst ++ [p] := by
  induction cs with
  | nil => simp [append_to_cluster]
  | cons hd rest ih =>
    obtain ⟨k, ns⟩ := hd
    by_cases hk : k = p
    · subst hk; simp [append_to_cluster]
    · have hp : p ≠ k := fun h => hk h.symm
      simp only [append_to_cluster, if_neg hk, List.map_cons, List.mem_cons]
      rw [ih]
      by_cases hpm : p ∈ rest.map Prod.fst
      · simp [hpm, hp]
      · simp [hpm, hp]

theorem clusters_get_eq_nil_of_not_mem (cs : List (Str × List Str)) (c : Str)
    (h : c ∉ cs.map Prod.fst) : clusters_get cs c = [] := by
  induction cs with
  | nil => rfl
  | cons hd rest ih =>
    obtain ⟨k, ns⟩ := hd
    simp only [List.map_cons, List.mem_cons] at h
    push_neg at h
    have hk : k ≠ c := fun he => h.1 he.symm
    simp [clusters_get, hk, ih h.2]

theorem build_clusters_keys_nodup_aux (nodes : List Str) :
    ∀ cs : List (Str × List Str), (cs.map Prod.fst).Nodup →
      (((nodes.foldl (fun cs node => append_to_cluster cs (owner_path node) node) cs)).map
        Prod.fst).Nodup := by
  induction nodes with
  | nil => intro cs h; simpa using h
  | cons x xs ih =>
    intro cs h
    simp only [List.foldl_cons]
    apply ih
    rw [keys_append_to_cluster]
    by_cases hp : owner_path x ∈ cs.map Prod.fst
    · simpa [hp] using h
    · rw [if_neg hp]
      exact List.Nodup.append h (List.nodup_singleton _)
        (fun a ha hb => hp ((List.mem_singleton.mp hb) ▸ ha))

theorem build_clusters_keys_nodup (nodes : List Str) :
    ((build_clusters nodes).map Prod.fst).Nodup :=
  build_clusters_keys_nodup_aux nodes [] (by simp)

theorem owner_path_mem_keys (nodes : List Str) (n : Str) (hn : n ∈ nodes) :
    owner_path n ∈ (build_clusters nodes).map Prod.fst := by
  by_contra h
  have h0 := clusters_get_eq_nil_of_not_mem _ _ h
  rw [build_clusters_get] at h0
  have hm : n ∈ nodes.filter (fun m => decide (owner_path m = owner_path n)) :=
    List.mem_filter.mpr ⟨hn, by simp⟩
  rw [h0] at hm
  exact absurd hm (List.not_mem_nil n)

/-- C7: for every list of strings (empty strings and separator-free strings
included, no failure possible), the partitioner assigns each node the owning
cluster path given by the all-but-last-segment rule (empty for single-segment
nodes), and each cluster's node list is exactly the input subsequence of the
nodes owned by it, preserving input order. -/
theorem partitioner_assigns_by_rule (nodes : List Str) (c : Str) :
    clusters_get (build_clusters nodes) c
      = nodes.filter (fun n => decide (owner_path n = c)) :=
  build_clusters_get nodes c

/-- C10: the edge serializer's owning-cluster function `get_cluster` agrees
with the partitioner's inline owning-cluster rule on every string. -/
theorem get_cluster_eq_owner_path (node : Str) : get_cluster node = owner_path node := by
  unfold get_cluster owner_path
  by_cases h : '/' ∈ node
  · rw [if_pos h, if_pos ((one_lt_split_sep_length_iff node).mpr h)]
  · rw [if_neg h, if_neg (fun hl => h ((one_lt_split_sep_length_iff node).mp hl))]

/-! ### Edge attributes -/

theorem edge_attrs_eq (f t : Str) :
    edge_attrs f t =
      if get_cluster f ≠ get_cluster t then
        (if get_cluster t ≠ [] then
            [str "lhead=\"" ++ cluster_key (get_cluster t) ++ str "\""] else [])
          ++ (if get_cluster f ≠ [] then
            [str "ltail=\"" ++ cluster_key (get_cluster f) ++ str "\""] else [])
      else [] := rfl

theorem attr_head_ne_tail (a b : Str) :
    str "lhead=\"" ++ a ++ str "\"" ≠ str "ltail=\"" ++ b ++ str "\"" := by
  intro h
  have h1 := congrArg (fun l : Str => l.get? 1) h
  simp only [List.append_assoc] at h1
  rw [List.get?_append (by decide), List.get?_append (by decide)] at h1
  exact absurd h1 (by decide)

theorem attr_ne_nil (pre mid post : Str) (hpost : post ≠ []) : pre ++ mid ++ post ≠ [] := by
  intro h
  rcases List.append_eq_nil.mp h with ⟨-, h2⟩
  exact hpost h2

theorem edge_key_of_eq_nil_iff (f t : Str) :
    edge_key_of f t = [] ↔ get_cluster f = get_cluster t := by
  constructor
  · intro h
    by_contra hne
    rw [edge_key_of, edge_attrs_eq, if_pos hne] at h
    by_cases ht : get_cluster t = []
    · by_cases hf : get_cluster f = []
      · exact hne (by rw [hf, ht])
      · rw [if_neg (not_not_intro ht), if_pos hf, List.nil_append] at h
        simp only [join_with] at h
        exact attr_ne_nil _ _ _ (by decide) h
    · rw [if_pos ht] at h
      by_cases hf : get_cluster f = []
      · rw [if_neg (not_not_intro hf), List.append_nil] at h
        simp only [join_with] at h
        exact attr_ne_nil _ _ _ (by decide) h
      · rw [if_pos hf] at h
        simp only [List.cons_append, List.nil_append, join_with] at h
        rcases List.append_eq_nil.mp h with ⟨h1, -⟩
        rcases List.append_eq_nil.mp h1 with ⟨h2, -⟩
        exact attr_ne_nil _ _ _ (by decide) h2
  · intro h
    rw [edge_key_of, edge_attrs_eq, if_neg (not_not_intro h)]
    rfl

/-! ### The edge loop -/

theorem add_edges_eq_keyed (edges : List (Str × Str)) :
    ∀ seen : List Str,
      add_edges seen edges
        = (add_edges_keyed seen edges).map (fun e => edge_line e.1 e.2.1 e.2.2) := by
  induction edges with
  | nil => intro seen; rfl
  | cons e rest ih =>
    intro seen
    obtain ⟨f, t⟩ := e
    simp only [add_edges, add_edges_keyed]
    by_cases h : edge_key_of f t ∉ seen ∨ edge_key_of f t = []
    · rw [if_pos h, if_pos h, List.map_cons, ih]
    · rw [if_neg h, if_neg h]; exact ih seen

theorem add_edges_keyed_count_zero_of_seen (edges : List (Str × Str)) :
    ∀ (seen : List Str) (s : Str), s ∈ seen → s ≠ [] →
      ((add_edges_keyed seen edges).filter (fun e => decide (e.2.2 = s))).length = 0 := by
  induction edges with
  | nil => intro seen s _ _; rfl
  | cons e rest ih =>
    intro seen s hs hne
    obtain ⟨f, t⟩ := e
    simp only [add_edges_keyed]
    by_cases h : edge_key_of f t ∉ seen ∨ edge_key_of f t = []
    · rw [if_pos h]
      have hk : ¬ edge_key_of f t = s := by
        intro he
        rcases h with h1 | h2
        · exact h1 (he ▸ hs)
        · exact hne (he ▸ h2)
      rw [List.filter_cons, if_neg (by simpa using hk)]
      exact ih (edge_key_of f t :: seen) s (List.mem_cons_of_mem _ hs) hne
    · rw [if_neg h]
      exact ih seen s hs hne

theorem add_edges_keyed_count_le_one (edges : List (Str × Str)) :
    ∀ (seen : List Str) (s : Str), s ≠ [] →
      ((add_edges_keyed seen edges).filter (fun e => decide (e.2.2 = s))).length ≤ 1 := by
  induction edges with
  | nil => intro seen s _; simp [add_edges_keyed]
  | cons e rest ih =>
    intro seen s hne
    obtain ⟨f, t⟩ := e
    simp only [add_edges_keyed]
    by_cases h : edge_key_of f t ∉ seen ∨ edge_key_of f t = []
    · rw [if_pos h]
      by_cases hk : edge_key_of f t = s
      · rw [List.filter_cons, if_pos (by simpa using hk)]
        simp only [List.length_cons]
        have h0 := add_edges_keyed_count_zero_of_seen rest (edge_key_of f t :: seen) s
          (hk ▸ List.mem_cons_self _ _) hne
        omega
      · rw [List.filter_cons, if_neg (by simpa using hk)]
        exact ih (edge_key_of f t :: seen) s hne
    · rw [if_neg h]
      exact ih seen s hne

theorem add_edges_keyed_count_nil (edges : List (Str × Str)) :
    ∀ seen : List Str,
      ((add_edges_keyed seen edges).filter (fun e => decide (e.2.2 = []))).length
        = (edges.filter (fun e => decide (get_cluster e.1 = get_cluster e.2))).length := by
  induction edges with
  | nil => intro seen; rfl
  | cons e rest ih =>
    intro seen
    obtain ⟨f, t⟩ := e
    simp only [add_edges_keyed]
    by_cases hk : edge_key_of f t = []
    · have hc : get_cluster f = get_cluster t := (edge_key_of_eq_nil_iff f t).mp hk
      rw [if_pos (Or.inr hk), List.filter_cons, List.filter_cons,
        if_pos (by simpa using hk), if_pos (by simpa using hc)]
      simp only [List.length_cons, ih]
    · have hc : ¬ get_cluster f = get_cluster t :=
        fun h => hk ((edge_key_of_eq_nil_iff f t).mpr h)
      by_cases h : edge_key_of f t ∉ seen ∨ edge_key_of f t = []
      · rw [if_pos h, List.filter_cons, List.filter_cons,
          if_neg (by simpa using hk), if_neg (by simpa using hc)]
        exact ih _
      · rw [if_neg h, List.filter_cons, if_neg (by simpa using hc)]
        exact ih seen

/-! ### Claim theorems on edges -/

/-- C3: in the edge loop, at most one emitted edge carries any given
non-empty attribute string (duplicate boundary-crossing edges between the
same cluster pair are suppressed), while every same-cluster edge (empty
attribute string) is emitted no matter how many empty-attribute edges
preceded it; and the formatted edge lines of `add_edges` are exactly the
emitted `(from, to, key)` triples rendered by `edge_line`. -/
theorem edge_dedup_spec :
    (∀ (edges : List (Str × Str)) (s : Str), s ≠ [] →
        ((add_edges_keyed [] edges).filter (fun e => decide (e.2.2 = s))).length ≤ 1)
  ∧ (∀ edges : List (Str × Str),
        ((add_edges_keyed [] edges).filter (fun e => decide (e.2.2 = []))).length
          = (edges.filter (fun e => decide (get_cluster e.1 = get_cluster e.2))).length)
  ∧ (∀ (edges : List (Str × Str)) (seen : List Str),
        add_edges seen edges
          = (add_edges_keyed seen edges).map (fun e => edge_line e.1 e.2.1 e.2.2)) :=
  ⟨fun edges s h => add_edges_keyed_count_le_one edges [] s h,
   fun edges => add_edges_keyed_count_nil edges [],
   fun edges seen => add_edges_eq_keyed edges seen⟩

theorem edge_dedup_spec_witness :
    ((add_edges_keyed [] [(str "a/x", str "b/y"), (str "a/z", str "b/w")]).filter
        (fun e => decide (e.2.2 = str "lhead=\"cluster_b\", ltail=\"cluster_a\""))).length ≤ 1 :=
  edge_dedup_spec.1 [(str "a/x", str "b/y"), (str "a/z", str "b/w")]
    (str "lhead=\"cluster_b\", ltail=\"cluster_a\"") (by decide)

/-- C6: for every edge whose endpoints' owning clusters differ, the
attribute list contains the lhead attribute for the target's cluster key
exactly when the target's cluster path is non-empty and the ltail
attribute for the source's cluster key exactly when the source's cluster
path is non-empty; when the owning clusters agree the list is empty; and
on input nodes ["a", "b/c"] with edge ("a", "b/c") the generated document
has exactly one edge line, carrying lhead for cluster b and no ltail. -/
theorem edge_attrs_boundary_spec :
    (∀ from_node to_node : Str, get_cluster from_node ≠ get_cluster to_node →
        (((str "lhead=\"" ++ cluster_key (get_cluster to_node) ++ str "\"") ∈
              edge_attrs from_node to_node) ↔ get_cluster to_node ≠ [])
      ∧ (((str "ltail=\"" ++ cluster_key (get_cluster from_node) ++ str "\"") ∈
              edge_attrs from_node to_node) ↔ get_cluster from_node ≠ []))
  ∧ (∀ from_node to_node : Str, get_cluster from_node = get_cluster to_node →
        edge_attrs from_node to_node = [])
  ∧ edge_attrs (str "a") (str "b/c") = [str "lhead=\"cluster_b\""]
  ∧ (generate_dot ⟨[str "a", str "b/c"], [(str "a", str "b/c")]⟩).count
        (str "    \"a\" -> \"b/c\" [lhead=\"cluster_b\"];") = 1 := by
  refine ⟨?_, ?_, by decide, by decide⟩
  · intro f t hne
    rw [edge_attrs_eq, if_pos hne]
    constructor
    · by_cases ht : get_cluster t = []
      · rw [if_neg (not_not_intro ht), List.nil_append]
        constructor
        · intro hmem
          exfalso
          by_cases hf : get_cluster f = []
          · rw [if_neg (not_not_intro hf)] at hmem
            exact absurd hmem (List.not_mem_nil _)
          · rw [if_pos hf] at hmem
            exact attr_head_ne_tail _ _ (List.mem_singleton.mp hmem)
        · intro h2; exact absurd ht h2
      · rw [if_pos ht]
        exact ⟨fun _ => ht,
          fun _ => List.mem_append_left _ (List.mem_singleton.mpr rfl)⟩
    · by_cases hf : get_cluster f = []
      · rw [if_neg (not_not_intro hf), List.append_nil]
        constructor
        · intro hmem
          exfalso
          by_cases ht : get_cluster t = []
          · rw [if_neg (not_not_intro ht)] at hmem
            exact absurd hmem (List.not_mem_nil _)
          · rw [if_pos ht] at hmem
            exact attr_head_ne_tail _ _ (List.mem_singleton.mp hmem).symm
        · intro h2; exact absurd hf h2
      · rw [if_pos hf]
        exact ⟨fun _ => hf,
          fun _ => List.mem_append_right _ (List.mem_singleton.mpr rfl)⟩
  · intro f t h
    rw [edge_attrs_eq, if_neg (not_not_intro h)]

theorem edge_attrs_boundary_spec_witness :
    (str "lhead=\"" ++ cluster_key (get_cluster (str "b/c")) ++ str "\"") ∈
      edge_attrs (str "a") (str "b/c") :=
  ((edge_attrs_boundary_spec.1 (str "a") (str "b/c") (by decide)).1).mpr (by decide)

/-- C5 counterexample: on input nodes ["a/b/y"] the emitted opening block
for cluster path "a/b" is keyed `cluster_a/b`, whose key still contains
the path separator, refuting the claimed replacement of separators by a
non-conflicting character. -/
theorem cluster_key_keeps_separator :
    '/' ∈ cluster_key (str "a/b")
  ∧ (str "    subgraph \"cluster_a/b\" \x7b") ∈ generate_dot ⟨[str "a/b/y"], []⟩ := by
  decide

/-- C5 (amended): the opening block's key is `cluster_` prefixed to the
cluster path taken verbatim (separators retained), and this keying maps
distinct cluster paths to distinct keys for all inputs. -/
theorem cluster_key_injective (p q : Str) (h : cluster_key p = cluster_key q) : p = q :=
  List.append_cancel_left h

theorem cluster_key_injective_witness : str "a/b" = str "a/b" :=
  cluster_key_injective (str "a/b") (str "a/b") rfl

/-- C9: document generation is a pure function of the `nodes` and `edges`
fields of the input: two inputs agreeing on both produce byte-identical
output text. -/
theorem generate_dot_deterministic (d1 d2 : InputData)
    (hn : d1.nodes = d2.nodes) (he : d1.edges = d2.edges) :
    generate_dot_output d1 = generate_dot_output d2 := by
  cases d1; cases d2
  cases hn; cases he
  rfl

theorem generate_dot_deterministic_witness :
    generate_dot_output ⟨[str "a"], []⟩ = generate_dot_output ⟨[str "a"], []⟩ :=
  generate_dot_deterministic ⟨[str "a"], []⟩ ⟨[str "a"], []⟩ rfl rfl

/-! ### Unfolding the subgraph traversal -/

theorem create_subgraphs_succ (clusters : List (Str × List Str)) (fuel : Nat)
    (cluster_path : Str) (parents : List Str) :
    create_subgraphs clusters (fuel + 1) cluster_path parents
      = (if cluster_path ≠ [] then
            opening_lines (indent_str (parents.length + 1)) cluster_path
              (cluster_path.drop (if parents = [] then 0 else (parents.getLastD []).length))
              (depth_color (parents.length + 1))
          else [])
        ++ (clusters_get clusters cluster_path).map
            (fun node => node_decl_line (indent_str (parents.length + 1)) node)
        ++ ((sort_strs (((clusters.map Prod.fst).filter
              (fun k => starts_with k (cluster_path ++ ['/'])
                && decide (k ≠ cluster_path))).eraseDups)).flatMap
            (fun nested =>
              create_subgraphs clusters fuel nested (parents ++ [cluster_path ++ ['/']])))
        ++ (if cluster_path ≠ [] then
            [indent_str (parents.length + 1) ++ str "\x7d"] else []) := rfl

theorem generate_dot_eq (data : InputData) :
    generate_dot data
      = [ str "digraph G \x7b"
        , str "    compound=true;"
        , str "    rankdir=LR;"
        , str "    node [style=filled, fillcolor=\"#ffffff\", shape=box];" ]
        ++ ((build_clusters data.nodes).map Prod.fst).flatMap
            (fun root_cluster => create_subgraphs (build_clusters data.nodes)
              ((((build_clusters data.nodes).map Prod.fst).map List.length).sum + 1)
              root_cluster [])
        ++ add_edges [] data.edges
        ++ [str "\x7d"] := rfl

theorem subgraph_open_mem_create (clusters : List (Str × List Str)) (fuel : Nat)
    (cluster_path : Str) (parents : List Str) (h : cluster_path ≠ []) :
    subgraph_open (indent_str (parents.length + 1)) cluster_path
      ∈ create_subgraphs clusters (fuel + 1) cluster_path parents := by
  rw [create_subgraphs_succ, if_pos h]
  exact List.mem_append_left _ (List.mem_append_left _ (List.mem_append_left _
    (by simp [opening_lines])))

/-! ### C8: colors are indexed by nesting depth -/

/-- C8: every cluster block emitted with parent list `parents` sits at
nesting depth d = parents.length + 1 ≥ 1 and carries `color` and
`fillcolor` lines whose color is the palette entry at index
(d - 1) mod 4 (the palette size), so blocks at depths congruent modulo
the palette size receive the same color. -/
theorem cluster_color_depth_spec :
    (∀ (clusters : List (Str × List Str)) (fuel : Nat) (cluster_path : Str)
        (parents : List Str), cluster_path ≠ [] →
        (indent_str (parents.length + 1) ++ str "    color=\""
            ++ depth_color (parents.length + 1) ++ str "\";")
          ∈ create_subgraphs clusters (fuel + 1) cluster_path parents
      ∧ (indent_str (parents.length + 1) ++ str "    fillcolor=\""
            ++ depth_color (parents.length + 1) ++ str "\";")
          ∈ create_subgraphs clusters (fuel + 1) cluster_path parents)
  ∧ (∀ d : Nat, 1 ≤ d → depth_color d = pastels_hex_color_theme.getD ((d - 1) % 4) [])
  ∧ (∀ d e : Nat, 1 ≤ d → 1 ≤ e → d % 4 = e % 4 → depth_color d = depth_color e) := by
  refine ⟨?_, fun d _ => rfl, ?_⟩
  · intro clusters fuel cluster_path parents hp
    rw [create_subgraphs_succ, if_pos hp]
    constructor
    · exact List.mem_append_left _ (List.mem_append_left _ (List.mem_append_left _
        (by simp [opening_lines])))
    · exact List.mem_append_left _ (List.mem_append_left _ (List.mem_append_left _
        (by simp [opening_lines])))
  · intro d e hd he hmod
    have h : (d - 1) % pastels_hex_color_theme.length
        = (e - 1) % pastels_hex_color_theme.length := by
      show (d - 1) % 4 = (e - 1) % 4
      omega
    rw [depth_color, depth_color, h]

theorem cluster_color_depth_spec_witness :
    (indent_str 1 ++ str "    color=\"" ++ depth_color 1 ++ str "\";")
      ∈ create_subgraphs [] 1 (str "a") [] :=
  (cluster_color_depth_spec.1 [] 0 (str "a") [] (by decide)).1

/-! ### C4: which cluster paths get a block -/

/-- C4 counterexample: on input nodes ["a/b/y"] the path "a" occurs as an
ancestor prefix of the partition key "a/b", yet no opening block line for
cluster "a" occurs anywhere in the generated document (at any indent),
refuting the claimed emission of ancestor-prefix cluster blocks. -/
theorem ancestor_block_missing :
    (str "a/b") ∈ (build_clusters [str "a/b/y"]).map Prod.fst
  ∧ ((generate_dot ⟨[str "a/b/y"], []⟩).filter
      (fun l => decide (l.dropWhile (fun c => decide (c = ' '))
        = str "subgraph \"cluster_a\" \x7b"))).length = 0 := by
  decide

/-- C4 (amended): a cluster block is emitted for every cluster path that
directly owns at least one node, i.e. every non-empty key of the
partition mapping: its opening block line occurs in the generated
document.  Cluster paths occurring only as ancestor prefixes of partition
keys receive no block (see the counterexample). -/
theorem partition_key_block_emitted (data : InputData) (k : Str)
    (hk : k ∈ (build_clusters data.nodes).map Prod.fst) (hne : k ≠ []) :
    subgraph_open (indent_str 1) k ∈ generate_dot data := by
  rw [generate_dot_eq]
  apply List.mem_append_left
  apply List.mem_append_left
  apply List.mem_append_right
  rw [List.mem_flatMap]
  exact ⟨k, hk, subgraph_open_mem_create _ _ k [] hne⟩

theorem partition_key_block_emitted_witness :
    subgraph_open (indent_str 1) (str "a/b") ∈ generate_dot ⟨[str "a/b/y"], []⟩ :=
  partition_key_block_emitted ⟨[str "a/b/y"], []⟩ (str "a/b") (by decide) (by decide)

/-! ### C1: the duplicate-emission defect -/

/-- C1: on input nodes ["a/x", "a/b/y"] the cluster path "a/b" is both a
top-level loop key and a strict descendant of the key "a"; the generated
document contains its opening block line twice — once nested inside block
"a" through the recursion and once again from the top-level loop over all
partition keys — contradicting the claimed exactly-once emission. -/
theorem cluster_block_emitted_twice :
    ((generate_dot ⟨[str "a/x", str "a/b/y"], []⟩).filter
      (fun l => decide (l.dropWhile (fun c => decide (c = ' '))
        = str "subgraph \"cluster_a/b\" \x7b"))).length = 2 := by
  decide

/-! ### C2: node declarations -/

/-- C2 counterexample: on the input node list ["a", "a"] the identifier
"a" is declared twice in the generated document, refuting the claimed
exactly-once node declaration for arbitrary input lists. -/
theorem node_declared_twice :
    (generate_dot ⟨[str "a", str "a"], []⟩).count (str "        \"a\" [label=\"a\"];")
      = 2 := by
  decide

/-! ### Normal forms of emitted lines at the top-level indent -/

theorem node_decl_line_indent1 (n : Str) :
    node_decl_line (indent_str 1) n
      = str "        \"" ++ (n ++ (str "\" [label=\"" ++ (last_seg n ++ str "\"];"))) := by
  simp only [node_decl_line, List.append_assoc]
  rw [← List.append_assoc (indent_str 1) (str "    \"")]
  rw [show indent_str 1 ++ str "    \"" = str "        \"" by decide]

theorem subgraph_open_indent1 (p : Str) :
    subgraph_open (indent_str 1) p
      = str "    subgraph \"" ++ (cluster_key p ++ str "\" \x7b") := by
  simp only [subgraph_open, List.append_assoc]
  rw [← List.append_assoc (indent_str 1) (str "subgraph \"")]
  rw [show indent_str 1 ++ str "subgraph \"" = str "    subgraph \"" by decide]

theorem label_line_indent1 (l : Str) :
    indent_str 1 ++ str "    label=\"" ++ l ++ str "\";"
      = str "        label=\"" ++ (l ++ str "\";") := by
  simp only [List.append_assoc]
  rw [← List.append_assoc (indent_str 1) (str "    label=\"")]
  rw [show indent_str 1 ++ str "    label=\"" = str "        label=\"" by decide]

theorem color_line_indent1 (c : Str) :
    indent_str 1 ++ str "    color=\"" ++ c ++ str "\";"
      = str "        color=\"" ++ (c ++ str "\";") := by
  simp only [List.append_assoc]
  rw [← List.append_assoc (indent_str 1) (str "    color=\"")]
  rw [show indent_str 1 ++ str "    color=\"" = str "        color=\"" by decide]

theorem fillcolor_line_indent1 (c : Str) :
    indent_str 1 ++ str "    fillcolor=\"" ++ c ++ str "\";"
      = str "        fillcolor=\"" ++ (c ++ str "\";") := by
  simp only [List.append_assoc]
  rw [← List.append_assoc (indent_str 1) (str "    fillcolor=\"")]
  rw [show indent_str 1 ++ str "    fillcolor=\"" = str "        fillcolor=\"" by decide]

theorem edge_line_norm (f t k : Str) :
    edge_line f t k
      = str "    \"" ++ (f ++ (str "\" -> \"" ++ (t ++ (str "\" [" ++ (k ++ str "];"))))) := by
  simp only [edge_line, List.append_assoc]

/-! ### No other emitted line collides with a node declaration line -/

theorem ne_open_node (p n : Str) :
    subgraph_open (indent_str 1) p ≠ node_decl_line (indent_str 1) n := by
  intro h
  have h4 : (subgraph_open (indent_str 1) p).get? 4
      = (node_decl_line (indent_str 1) n).get? 4 := by rw [h]
  rw [subgraph_open_indent1, node_decl_line_indent1,
    List.get?_append (by decide), List.get?_append (by decide)] at h4
  exact absurd h4 (by decide)

theorem ne_label_node (l n : Str) :
    indent_str 1 ++ str "    label=\"" ++ l ++ str "\";"
      ≠ node_decl_line (indent_str 1) n := by
  intro h
  have h8 : (indent_str 1 ++ str "    label=\"" ++ l ++ str "\";").get? 8
      = (node_decl_line (indent_str 1) n).get? 8 := by rw [h]
  rw [label_line_indent1, node_decl_line_indent1,
    List.get?_append (by decide), List.get?_append (by decide)] at h8
  exact absurd h8 (by decide)

theorem ne_fontsize_node (n : Str) :
    indent_str 1 ++ str "    fontsize=20;" ≠ node_decl_line (indent_str 1) n := by
  intro h
  have h8 : (indent_str 1 ++ str "    fontsize=20;").get? 8
      = (node_decl_line (indent_str 1) n).get? 8 := by rw [h]
  rw [show indent_str 1 ++ str "    fontsize=20;" = str "        fontsize=20;" by decide,
    node_decl_line_indent1, List.get?_append (by decide)] at h8
  exact absurd h8 (by decide)

theorem ne_style_node (n : Str) :
    indent_str 1 ++ str "    style=filled;" ≠ node_decl_line (indent_str 1) n := by
  intro h
  have h8 : (indent_str 1 ++ str "    style=filled;").get? 8
      = (node_decl_line (indent_str 1) n).get? 8 := by rw [h]
  rw [show indent_str 1 ++ str "    style=filled;" = str "        style=filled;" by decide,
    node_decl_line_indent1, List.get?_append (by decide)] at h8
  exact absurd h8 (by decide)

theorem ne_color_node (c n : Str) :
    indent_str 1 ++ str "    color=\"" ++ c ++ str "\";"
      ≠ node_decl_line (indent_str 1) n := by
  intro h
  have h8 : (indent_str 1 ++ str "    color=\"" ++ c ++ str "\";").get? 8
      = (node_decl_line (indent_str 1) n).get? 8 := by rw [h]
  rw [color_line_indent1, node_decl_line_indent1,
    List.get?_append (by decide), List.get?_append (by decide)] at h8
  exact absurd h8 (by decide)

theorem ne_fillcolor_node (c n : Str) :
    indent_str 1 ++ str "    fillcolor=\"" ++ c ++ str "\";"
      ≠ node_decl_line (indent_str 1) n := by
  intro h
  have h8 : (indent_str 1 ++ str "    fillcolor=\"" ++ c ++ str "\";").get? 8
      = (node_decl_line (indent_str 1) n).get? 8 := by rw [h]
  rw [fillcolor_line_indent1, node_decl_line_indent1,
    List.get?_append (by decide), List.get?_append (by decide)] at h8
  exact absurd h8 (by decide)

theorem ne_close_node (n : Str) :
    indent_str 1 ++ str "\x7d" ≠ node_decl_line (indent_str 1) n := by
  intro h
  have h4 : (indent_str 1 ++ str "\x7d").get? 4
      = (node_decl_line (indent_str 1) n).get? 4 := by rw [h]
  rw [show indent_str 1 ++ str "\x7d" = str "    \x7d" by decide,
    node_decl_line_indent1, List.get?_append (by decide)] at h4
  exact absurd h4 (by decide)

theorem ne_edge_node (f t k n : Str) :
    edge_line f t k ≠ node_decl_line (indent_str 1) n := by
  intro h
  have h4 : (edge_line f t k).get? 4 = (node_decl_line (indent_str 1) n).get? 4 := by rw [h]
  rw [edge_line_norm, node_decl_line_indent1,
    List.get?_append (by decide), List.get?_append (by decide)] at h4
  exact absurd h4 (by decide)

theorem node_decl_not_mem_header (n : Str) :
    node_decl_line (indent_str 1) n ∉
      ([ str "digraph G \x7b"
       , str "    compound=true;"
       , str "    rankdir=LR;"
       , str "    node [style=filled, fillcolor=\"#ffffff\", shape=box];" ] : List Str) := by
  intro hmem
  rw [List.mem_cons, List.mem_cons, List.mem_cons, List.mem_singleton] at hmem
  rcases hmem with hl | hl | hl | hl
  · have h4 : (node_decl_line (indent_str 1) n).get? 4
        = (str "digraph G \x7b").get? 4 := by rw [hl]
    rw [node_decl_line_indent1, List.get?_append (by decide)] at h4
    exact absurd h4 (by decide)
  · have h4 : (node_decl_line (indent_str 1) n).get? 4
        = (str "    compound=true;").get? 4 := by rw [hl]
    rw [node_decl_line_indent1, List.get?_append (by decide)] at h4
    exact absurd h4 (by decide)
  · have h4 : (node_decl_line (indent_str 1) n).get? 4
        = (str "    rankdir=LR;").get? 4 := by rw [hl]
    rw [node_decl_line_indent1, List.get?_append (by decide)] at h4
    exact absurd h4 (by decide)
  · have h4 : (node_decl_line (indent_str 1) n).get? 4
        = (str "    node [style=filled, fillcolor=\"#ffffff\", shape=box];").get? 4 := by
      rw [hl]
    rw [node_decl_line_indent1, List.get?_append (by decide)] at h4
    exact absurd h4 (by decide)

theorem ne_brace_node (n : Str) : str "\x7d" ≠ node_decl_line (indent_str 1) n := by
  intro h
  have h4 : (str "\x7d" : Str).get? 4 = (node_decl_line (indent_str 1) n).get? 4 := by rw [h]
  rw [node_decl_line_indent1, List.get?_append (by decide)] at h4
  exact absurd h4 (by decide)

/-! ### Injectivity of node declaration lines for arbitrary identifiers

The declaration line for `m` is `m` followed by the tag
`"\" [label=\"" ++ last_seg m ++ "\"];"`.  If two lines agree then one
identifier extends the other, say `n = m ++ s`, and `s` sits inside the
tag of `m`.  The tag contains no separator — its literal parts do not,
and the last path segment never does — so `s` is separator-free; but
then `last_seg n = last_seg m ++ s` and comparing lengths forces
`s = []`. -/

theorem getLastD_default_irrel (l : List Str) (hl : l ≠ []) (a b : Str) :
    l.getLastD a = l.getLastD b := by
  rcases List.eq_nil_or_concat l with h | ⟨L, x, h⟩
  · exact absurd h hl
  · subst h
    rw [List.concat_eq_append, List.getLastD_concat, List.getLastD_concat]

theorem slash_not_mem_split_sep : ∀ (m p : Str), p ∈ split_sep m → '/' ∉ p := by
  intro m
  induction m with
  | nil =>
    intro p hp
    rw [show split_sep [] = [[]] from rfl, List.mem_singleton] at hp
    subst hp
    exact List.not_mem_nil _
  | cons c m' ih =>
    intro p hp
    obtain ⟨x, xs, hr⟩ := List.exists_cons_of_ne_nil (split_sep_ne_nil m')
    rw [split_sep_cons_eq c m' x xs hr] at hp
    by_cases hc : c = '/'
    · rw [if_pos hc] at hp
      rcases List.mem_cons.mp hp with h | h
      · subst h; exact List.not_mem_nil _
      · exact ih p (by rw [hr]; exact h)
    · rw [if_neg hc] at hp
      rcases List.mem_cons.mp hp with h | h
      · subst h
        intro hmem
        rcases List.mem_cons.mp hmem with h1 | h1
        · exact hc h1.symm
        · exact ih x (by rw [hr]; exact List.mem_cons_self x xs) h1
      · exact ih p (by rw [hr]; exact List.mem_cons_of_mem x h)

theorem slash_not_mem_last_seg (m : Str) : '/' ∉ last_seg m := by
  rw [last_seg]
  obtain ⟨x, xs, hr⟩ := List.exists_cons_of_ne_nil (split_sep_ne_nil m)
  have hmem : (split_sep m).getLastD [] ∈ split_sep m := by
    rw [hr]
    rcases List.eq_nil_or_concat xs with h | ⟨L, b, h⟩
    · subst h
      rw [List.getLastD_cons, List.getLastD_nil]
      exact List.mem_cons_self _ _
    · subst h
      rw [List.concat_eq_append, show x :: (L ++ [b]) = (x :: L) ++ [b] from rfl,
        List.getLastD_concat]
      exact List.mem_append_right _ (List.mem_singleton.mpr rfl)
  exact slash_not_mem_split_sep m _ hmem

theorem split_sep_no_slash : ∀ s : Str, '/' ∉ s → split_sep s = [s] := by
  intro s
  induction s with
  | nil => intro _; rfl
  | cons c s' ih =>
    intro hs
    have hc : c ≠ '/' := fun h => hs (by rw [h]; exact List.mem_cons_self _ _)
    have ih' := ih (fun h => hs (List.mem_cons_of_mem _ h))
    rw [split_sep_cons_eq c s' s' [] ih', if_neg hc]

theorem split_sep_append_no_slash (s : Str) (hs : '/' ∉ s) :
    ∀ m : Str, split_sep (m ++ s) = (split_sep m).dropLast ++ [last_seg m ++ s] := by
  intro m
  induction m with
  | nil =>
    rw [List.nil_append, split_sep_no_slash s hs]
    rfl
  | cons c m' ih =>
    obtain ⟨h, t, hm'⟩ := List.exists_cons_of_ne_nil (split_sep_ne_nil m')
    by_cases hc : c = '/'
    · obtain ⟨h₂, t₂, hms⟩ := List.exists_cons_of_ne_nil (split_sep_ne_nil (m' ++ s))
      have hlast : last_seg (c :: m') = last_seg m' := by
        rw [last_seg, split_sep_cons_eq c m' h t hm', if_pos hc, List.getLastD_cons,
          last_seg, hm']
      rw [show c :: m' ++ s = c :: (m' ++ s) from rfl,
        split_sep_cons_eq c (m' ++ s) h₂ t₂ hms, if_pos hc,
        split_sep_cons_eq c m' h t hm', if_pos hc,
        hlast, List.dropLast_cons₂, List.cons_append]
      have ih' := ih
      rw [hms, hm'] at ih'
      exact congrArg (List.cons []) ih'
    · cases t with
      | nil =>
        have hlastm' : last_seg m' = h := by
          rw [last_seg, hm', List.getLastD_cons, List.getLastD_nil]
        have hms : split_sep (m' ++ s) = (h ++ s) :: [] := by
          rw [ih, hm', hlastm']
          rfl
        have hlast : last_seg (c :: m') = c :: h := by
          rw [last_seg, split_sep_cons_eq c m' h [] hm', if_neg hc, List.getLastD_cons,
            List.getLastD_nil]
        rw [show c :: m' ++ s = c :: (m' ++ s) from rfl,
          split_sep_cons_eq c (m' ++ s) (h ++ s) [] hms, if_neg hc,
          split_sep_cons_eq c m' h [] hm', if_neg hc, hlast]
        rfl
      | cons u t' =>
        have hlastm' : last_seg m' = (u :: t').getLastD [] := by
          rw [last_seg, hm', List.getLastD_cons]
          exact getLastD_default_irrel _ (by simp) h []
        have hms : split_sep (m' ++ s)
            = h :: ((u :: t').dropLast ++ [last_seg m' ++ s]) := by
          rw [ih, hm', List.dropLast_cons₂, List.cons_append]
        have hlast : last_seg (c :: m') = last_seg m' := by
          rw [last_seg, split_sep_cons_eq c m' h (u :: t') hm', if_neg hc,
            List.getLastD_cons, hlastm']
          exact getLastD_default_irrel _ (by simp) (c :: h) []
        rw [show c :: m' ++ s = c :: (m' ++ s) from rfl,
          split_sep_cons_eq c (m' ++ s) h ((u :: t').dropLast ++ [last_seg m' ++ s]) hms,
          if_neg hc, split_sep_cons_eq c m' h (u :: t') hm', if_neg hc,
          hlast, List.dropLast_cons₂, List.cons_append]

theorem last_seg_append_no_slash (m s : Str) (hs : '/' ∉ s) :
    last_seg (m ++ s) = last_seg m ++ s := by
  rw [last_seg, split_sep_append_no_slash s hs m, List.getLastD_concat]

theorem node_tag_aux (m n s : Str) (hn : n = m ++ s)
    (hu : str "\" [label=\"" ++ (last_seg m ++ str "\"];")
        = s ++ (str "\" [label=\"" ++ (last_seg n ++ str "\"];"))) : s = [] := by
  by_cases hsl : '/' ∈ s
  · exfalso
    have hmem : '/' ∈ str "\" [label=\"" ++ (last_seg m ++ str "\"];") := by
      rw [hu]
      exact List.mem_append_left _ hsl
    rcases List.mem_append.mp hmem with h | h
    · exact absurd h (by decide)
    rcases List.mem_append.mp h with h | h
    · exact slash_not_mem_last_seg m h
    · exact absurd h (by decide)
  · have hlast : last_seg n = last_seg m ++ s := by
      rw [hn]
      exact last_seg_append_no_slash m s hsl
    have hlen := congrArg List.length hu
    simp only [hlast, List.length_append] at hlen
    have hs0 : s.length = 0 := by omega
    exact List.length_eq_zero.mp hs0

theorem node_decl_line_inj (m n : Str)
    (h : node_decl_line (indent_str 1) m = node_decl_line (indent_str 1) n) : m = n := by
  rw [node_decl_line_indent1, node_decl_line_indent1] at h
  have h2 := List.append_cancel_left h
  rcases List.append_eq_append_iff.mp h2 with ⟨s, hne, hu⟩ | ⟨s, hme, hv⟩
  · have hs := node_tag_aux m n s hne hu
    subst hs
    rw [List.append_nil] at hne
    exact hne.symm
  · have hs := node_tag_aux n m s hme hv
    subst hs
    rw [List.append_nil] at hme
    exact hme

theorem count_node_decl_map (n : Str) :
    ∀ l : List Str,
      (l.map (fun node => node_decl_line (indent_str 1) node)).count
          (node_decl_line (indent_str 1) n)
        = l.count n := by
  intro l
  induction l with
  | nil => rfl
  | cons m rest ih =>
    rw [List.map_cons, List.count_cons, List.count_cons, ih]
    congr 1
    by_cases he : m = n
    · subst he; simp
    · have hne : node_decl_line (indent_str 1) m ≠ node_decl_line (indent_str 1) n :=
        fun hc => he (node_decl_line_inj m n hc)
      simp [beq_iff_eq, he, hne]

/-! ### Counting node declarations across the document -/

theorem node_decl_not_mem_add_edges (n : Str) (edges : List (Str × Str)) :
    ∀ seen : List Str, node_decl_line (indent_str 1) n ∉ add_edges seen edges := by
  induction edges with
  | nil => intro seen h; exact absurd h (List.not_mem_nil _)
  | cons e rest ih =>
    intro seen h
    obtain ⟨f, t⟩ := e
    simp only [add_edges] at h
    by_cases hc : edge_key_of f t ∉ seen ∨ edge_key_of f t = []
    · rw [if_pos hc] at h
      rcases List.mem_cons.mp h with h1 | h2
      · exact ne_edge_node f t _ n h1.symm
      · exact ih _ h2
    · rw [if_neg hc] at h
      exact ih _ h

theorem create_subgraphs_flat (clusters : List (Str × List Str)) (fuel : Nat) (k : Str)
    (h : ∀ q ∈ clusters.map Prod.fst, starts_with q (k ++ ['/']) = false) :
    create_subgraphs clusters (fuel + 1) k []
      = (if k ≠ [] then opening_lines (indent_str 1) k k (depth_color 1) else [])
        ++ (clusters_get clusters k).map (fun node => node_decl_line (indent_str 1) node)
        ++ (if k ≠ [] then [indent_str 1 ++ str "\x7d"] else []) := by
  rw [create_subgraphs_succ]
  have hf : ((clusters.map Prod.fst).filter
      (fun q => starts_with q (k ++ ['/']) && decide (q ≠ k))) = [] := by
    rw [List.filter_eq_nil_iff]
    intro q hq
    simp [h q hq]
  rw [hf, show sort_strs (List.eraseDups ([] : List Str)) = [] from rfl]
  simp [List.drop_zero]

theorem count_node_opening_zero (k c n : Str) :
    (opening_lines (indent_str 1) k k c).count (node_decl_line (indent_str 1) n) = 0 := by
  rw [List.count_eq_zero]
  intro hmem
  simp only [opening_lines, List.mem_cons] at hmem
  rcases hmem with h | h | h | h | h | h | h
  · exact ne_open_node k n h.symm
  · exact ne_label_node k n h.symm
  · exact ne_fontsize_node n h.symm
  · exact ne_style_node n h.symm
  · exact ne_color_node c n h.symm
  · exact ne_fillcolor_node c n h.symm
  · exact absurd h (List.not_mem_nil _)

theorem count_node_decl_block (clusters : List (Str × List Str)) (fuel : Nat) (k n : Str)
    (hflat : ∀ q ∈ clusters.map Prod.fst, starts_with q (k ++ ['/']) = false) :
    (create_subgraphs clusters (fuel + 1) k []).count (node_decl_line (indent_str 1) n)
      = (clusters_get clusters k).count n := by
  rw [create_subgraphs_flat clusters fuel k hflat, List.count_append, List.count_append,
    count_node_decl_map n _]
  have h1 : (if k ≠ [] then opening_lines (indent_str 1) k k (depth_color 1) else []).count
      (node_decl_line (indent_str 1) n) = 0 := by
    by_cases hk : k = []
    · rw [if_neg (not_not_intro hk)]; rfl
    · rw [if_pos hk]; exact count_node_opening_zero k (depth_color 1) n
  have h2 : (if k ≠ [] then [indent_str 1 ++ str "\x7d"] else []).count
      (node_decl_line (indent_str 1) n) = 0 := by
    by_cases hk : k = []
    · rw [if_neg (not_not_intro hk)]; rfl
    · rw [if_pos hk, List.count_eq_zero]
      intro hmem
      exact ne_close_node n (List.mem_singleton.mp hmem).symm
  rw [h1, h2]
  omega

theorem sum_map_ite_zero (a : Str) : ∀ keys : List Str, a ∉ keys →
    (keys.map (fun k => if a = k then (1 : Nat) else 0)).sum = 0 := by
  intro keys
  induction keys with
  | nil => intro _; rfl
  | cons k rest ih =>
    intro ha
    rw [List.map_cons, List.sum_cons,
      if_neg (fun h => ha (by rw [h]; exact List.mem_cons_self _ _)),
      ih (fun h => ha (List.mem_cons_of_mem _ h))]

theorem sum_map_ite_one (a : Str) : ∀ keys : List Str, keys.Nodup → a ∈ keys →
    (keys.map (fun k => if a = k then (1 : Nat) else 0)).sum = 1 := by
  intro keys
  induction keys with
  | nil => intro _ h; exact absurd h (List.not_mem_nil _)
  | cons k rest ih =>
    intro hnd ha
    rw [List.map_cons, List.sum_cons]
    by_cases he : a = k
    · rw [if_pos he, sum_map_ite_zero a rest (by subst he; exact (List.nodup_cons.mp hnd).1)]
    · have ha' : a ∈ rest := by
        rcases List.mem_cons.mp ha with h | h
        · exact absurd h he
        · exact h
      rw [if_neg he, ih (List.nodup_cons.mp hnd).2 ha']

theorem count_eq_one_of_nodup_mem (a : Str) : ∀ l : List Str, l.Nodup → a ∈ l →
    l.count a = 1 := by
  intro l
  induction l with
  | nil => intro _ h; exact absurd h (List.not_mem_nil _)
  | cons b rest ih =>
    intro hnd ha
    rw [List.count_cons]
    rcases List.mem_cons.mp ha with h | h
    · subst h
      rw [List.count_eq_zero.mpr (List.nodup_cons.mp hnd).1, if_pos (by simp)]
    · have hb : b ≠ a := fun he => (List.nodup_cons.mp hnd).1 (he ▸ h)
      rw [ih (List.nodup_cons.mp hnd).2 h, if_neg (by simp [hb])]

theorem count_in_owner_filter (nodes : List Str) (n k : Str) (hmem : n ∈ nodes)
    (hnd : nodes.Nodup) :
    (nodes.filter (fun m => decide (owner_path m = k))).count n
      = if owner_path n = k then 1 else 0 := by
  by_cases h : owner_path n = k
  · rw [if_pos h, List.count_filter (by simpa using h)]
    exact count_eq_one_of_nodup_mem n nodes hnd hmem
  · rw [if_neg h, List.count_eq_zero]
    intro hin
    exact h (by simpa using (List.mem_filter.mp hin).2)

/-- C2 (amended): for every input whose node identifiers are pairwise
distinct and whose partition keys are flat (no key is a strict descendant
of another; otherwise the C1 defect duplicates the declarations of the
nested cluster's nodes), every node identifier appears exactly once in
the generated document as a node declaration line, quoted by its full
identifier with the final path segment as its label. -/
theorem node_declaration_unique (data : InputData) (n : Str)
    (hmem : n ∈ data.nodes) (hnd : data.nodes.Nodup)
    (hflat : ∀ p ∈ (build_clusters data.nodes).map Prod.fst,
      ∀ q ∈ (build_clusters data.nodes).map Prod.fst,
        starts_with q (p ++ ['/']) = false) :
    (generate_dot data).count (node_decl_line (indent_str 1) n) = 1 := by
  rw [generate_dot_eq, List.count_append, List.count_append, List.count_append]
  have hheader :
      ([ str "digraph G \x7b"
       , str "    compound=true;"
       , str "    rankdir=LR;"
       , str "    node [style=filled, fillcolor=\"#ffffff\", shape=box];" ] : List Str).count
        (node_decl_line (indent_str 1) n) = 0 :=
    List.count_eq_zero.mpr (node_decl_not_mem_header n)
  have hedges : (add_edges [] data.edges).count (node_decl_line (indent_str 1) n) = 0 :=
    List.count_eq_zero.mpr (node_decl_not_mem_add_edges n data.edges [])
  have hbrace : ([str "\x7d"] : List Str).count (node_decl_line (indent_str 1) n) = 0 :=
    List.count_eq_zero.mpr (fun hm => ne_brace_node n (List.mem_singleton.mp hm).symm)
  have hflatcount :
      (((build_clusters data.nodes).map Prod.fst).flatMap
          (fun root_cluster => create_subgraphs (build_clusters data.nodes)
            ((((build_clusters data.nodes).map Prod.fst).map List.length).sum + 1)
            root_cluster [])).count (node_decl_line (indent_str 1) n) = 1 := by
    rw [List.count_flatMap]
    have hmapeq :
        ((build_clusters data.nodes).map Prod.fst).map
            (List.count (node_decl_line (indent_str 1) n) ∘
              (fun root_cluster => create_subgraphs (build_clusters data.nodes)
                ((((build_clusters data.nodes).map Prod.fst).map List.length).sum + 1)
                root_cluster []))
          = ((build_clusters data.nodes).map Prod.fst).map
              (fun k => if owner_path n = k then 1 else 0) := by
      apply List.map_congr_left
      intro k hk
      show (create_subgraphs (build_clusters data.nodes)
          ((((build_clusters data.nodes).map Prod.fst).map List.length).sum + 1)
          k []).count (node_decl_line (indent_str 1) n) = _
      rw [count_node_decl_block (build_clusters data.nodes)
        ((((build_clusters data.nodes).map Prod.fst).map List.length).sum) k n
        (fun q hq' => hflat k hk q hq'), build_clusters_get]
      exact count_in_owner_filter data.nodes n k hmem hnd
    rw [hmapeq]
    exact sum_map_ite_one (owner_path n) _ (build_clusters_keys_nodup data.nodes)
      (owner_path_mem_keys data.nodes n hmem)
  rw [hheader, hedges, hbrace, hflatcount]

theorem node_declaration_unique_witness :
    (generate_dot ⟨[str "a", str "b/c"], []⟩).count
        (node_decl_line (indent_str 1) (str "a")) = 1 :=
  node_declaration_unique ⟨[str "a", str "b/c"], []⟩ (str "a") (by decide) (by decide)
    (by decide)
